import Mathlib

/-!
Verification development for the markdown-to-terminal rendering engine of the
nia-vault repository (`src/lib/markdown-parser.ts` and the chalk renderer).

Strings are modelled as `List Char`.  Every JS regex used by the source is
specialised to an executable scanning function that follows the semantics of
`RegExp.prototype.exec` with the `g` flag on that concrete pattern: attempts
start at `lastIndex`, move right one character at a time on failure, and
`lastIndex` advances to the match end on success.  The recursive scanners use
a `Nat` fuel argument (initialised to the string length, which always
suffices) purely as a structural termination device so that all definitions
compute by kernel reduction.
-/

namespace NiaVault

/-- JS regex class `\s` (ECMAScript WhiteSpace ∪ LineTerminator), which is also
the character set removed by `String.prototype.trim`/`trimEnd`. -/
def jsWs (c : Char) : Bool :=
  c = ' ' || c = '\t' || c = '\n' || c.toNat = 11 || c.toNat = 12 || c = '\r' ||
  c.toNat = 0xa0 || c.toNat = 0x1680 || (0x2000 ≤ c.toNat && c.toNat ≤ 0x200a) ||
  c.toNat = 0x2028 || c.toNat = 0x2029 || c.toNat = 0x202f || c.toNat = 0x205f ||
  c.toNat = 0x3000 || c.toNat = 0xfeff

/-- Characters NOT matched by `.` in a JS regex (without the `s` flag):
the ECMAScript LineTerminator set. -/
def lineTerm (c : Char) : Bool :=
  c = '\n' || c = '\r' || c.toNat = 0x2028 || c.toNat = 0x2029

/-- JS regex class `\w`. -/
def wordChar (c : Char) : Bool :=
  ('a' ≤ c && c ≤ 'z') || ('A' ≤ c && c ≤ 'Z') || ('0' ≤ c && c ≤ '9') || c = '_'

/-- JS regex class `\d`. -/
def digitChar (c : Char) : Bool :=
  '0' ≤ c && c ≤ '9'

/-- Length of the maximal run of characters satisfying `p` at the front. -/
def countLeading (p : Char → Bool) : List Char → Nat
  | [] => 0
  | c :: rest => if p c then countLeading p rest + 1 else 0

/-- Index of the first occurrence of `x`, if any. -/
def findCh (x : Char) : List Char → Option Nat
  | [] => none
  | c :: rest => if c = x then some 0 else (findCh x rest).map (· + 1)

/-- `s.slice(a, b)` on the character list. -/
def slice (s : List Char) (a b : Nat) : List Char :=
  (s.drop a).take (b - a)

/-- `text.split("\n")` (always returns at least one line). -/
def splitLines : List Char → List (List Char)
  | [] => [[]]
  | c :: rest =>
    let ls := splitLines rest
    if c = '\n' then [] :: ls
    else
      match ls with
      | l :: ls2 => (c :: l) :: ls2
      | [] => [[c]]

/-- `lines.join("\n")`. -/
def joinNL (ls : List (List Char)) : List Char :=
  List.intercalate ['\n'] ls

/-- `String.prototype.trimEnd`. -/
def trimEnd (s : List Char) : List Char :=
  (s.reverse.dropWhile jsWs).reverse

/-! ## Inline token data model (`InlineToken`, `InlineMatch`) -/

/-- The narrowed union `InlineToken["type"]`. -/
inductive InlineType where
  | text | bold | italic | inline_code | link
  deriving DecidableEq, Repr

/-- `interface InlineToken { type; content; metadata?: LinkMetadata }`. -/
structure InlineToken where
  type : InlineType
  content : List Char
  metadata : Option (List Char) := none
  deriving DecidableEq, Repr

/-- `interface InlineMatch { index; length; type; content; metadata? }`. -/
structure InlineMatch where
  index : Nat
  length : Nat
  type : InlineType
  content : List Char
  metadata : Option (List Char) := none
  deriving DecidableEq, Repr

/-! ## The five inline regex scanners

Each models one `while (match = regex.exec(str))` loop from `findAllMatches`.
The `i` argument is the absolute position of the head of `cs` in the full
string; `fuel` only forces termination (any `fuel ≥ cs.length` gives the
same result, and the callers pass `cs.length`). -/

/-- Scanner for ``/`([^`]+)`/g`` (inline code).  At a backtick whose next
backtick lies at relative offset `k+1` in the tail, the greedy `[^`]+` run is
nonempty exactly when `k ≥ 1`; on success the engine resumes after the
closing backtick, on failure one character further right. -/
def codeScan : Nat → List Char → Nat → List InlineMatch
  | 0, _, _ => []
  | _, [], _ => []
  | fuel + 1, c :: rest, i =>
    if c = '`' then
      match findCh '`' rest with
      | some k =>
        if 1 ≤ k then
          { index := i, length := k + 2, type := .inline_code, content := rest.take k } ::
            codeScan fuel (rest.drop (k + 1)) (i + k + 2)
        else codeScan fuel rest (i + 1)
      | none => codeScan fuel rest (i + 1)
    else codeScan fuel rest (i + 1)

/-- Scanner for `/\[([^\]]+)\]\(([^)]+)\)/g` (links).  `[^\]]+` runs greedily
to the first `]`, which must be followed by `(`, then `[^)]+` runs to the
first `)`; both captures must be nonempty. -/
def linkScan : Nat → List Char → Nat → List InlineMatch
  | 0, _, _ => []
  | _, [], _ => []
  | fuel + 1, c :: rest, i =>
    if c = '[' then
      match findCh ']' rest with
      | some k =>
        if 1 ≤ k then
          match rest.drop (k + 1) with
          | c2 :: rest2 =>
            if c2 = '(' then
              match findCh ')' rest2 with
              | some m =>
                if 1 ≤ m then
                  { index := i, length := k + m + 4, type := .link,
                    content := rest.take k, metadata := some (rest2.take m) } ::
                    linkScan fuel (rest2.drop (m + 1)) (i + k + m + 4)
                else linkScan fuel rest (i + 1)
              | none => linkScan fuel rest (i + 1)
            else linkScan fuel rest (i + 1)
          | [] => linkScan fuel rest (i + 1)
        else linkScan fuel rest (i + 1)
      | none => linkScan fuel rest (i + 1)
    else linkScan fuel rest (i + 1)

/-- Scanner for `/\*\*([^*]+)\*\*/g` and `/__([^_]+)__/g` (bold), with the
delimiter character `d` abstracted.  Two copies of `d`, then a nonempty
greedy `[^d]+` run (so the character right after the opener must differ from
`d`), then two copies of `d`; the first `d` after the run closes it and the
character after that must again be `d`. -/
def boldScan (d : Char) : Nat → List Char → Nat → List InlineMatch
  | 0, _, _ => []
  | _, [], _ => []
  | _ + 1, [_], _ => []
  | fuel + 1, c1 :: c2 :: rest, i =>
    if c1 = d ∧ c2 = d then
      match rest with
      | c3 :: _ =>
        if c3 = d then boldScan d fuel (c2 :: rest) (i + 1)
        else
          match findCh d rest with
          | some k =>
            match rest.drop (k + 1) with
            | c4 :: rest2 =>
              if c4 = d then
                { index := i, length := k + 4, type := .bold, content := rest.take k } ::
                  boldScan d fuel rest2 (i + k + 4)
              else boldScan d fuel (c2 :: rest) (i + 1)
            | [] => boldScan d fuel (c2 :: rest) (i + 1)
          | none => boldScan d fuel (c2 :: rest) (i + 1)
      | [] => boldScan d fuel (c2 :: rest) (i + 1)
    else boldScan d fuel (c2 :: rest) (i + 1)

/-- Scanner for `/(?<!\*)\*(?!\*)([^*]+)(?<!\*)\*(?!\*)/g` and its `_`
counterpart (italic), with the delimiter `d` abstracted.  `prev` is the
character preceding the current attempt position (for the lookbehind); the
opening `d` must not be preceded or followed by `d`, the nonempty greedy
`[^d]+` run ends at the closing `d` (whose own lookbehind is automatic since
run characters differ from `d`), and the closing `d` must not be followed by
`d`. -/
def italicScan (d : Char) : Nat → Option Char → List Char → Nat → List InlineMatch
  | 0, _, _, _ => []
  | _, _, [], _ => []
  | fuel + 1, prev, c :: rest, i =>
    if c = d ∧ prev ≠ some d then
      match rest with
      | c2 :: _ =>
        if c2 = d then italicScan d fuel (some c) rest (i + 1)
        else
          match findCh d rest with
          | some k =>
            if (rest.drop (k + 1)).head? = some d then
              italicScan d fuel (some c) rest (i + 1)
            else
              { index := i, length := k + 2, type := .italic, content := rest.take k } ::
                italicScan d fuel (some d) (rest.drop (k + 1)) (i + k + 2)
          | none => italicScan d fuel (some c) rest (i + 1)
      | [] => italicScan d fuel (some c) rest (i + 1)
    else italicScan d fuel (some c) rest (i + 1)

/-! ## `hasOverlap`, match collection, and `findAllMatches` -/

/-- `function hasOverlap(match, existing)` — true when the candidate's start
lies inside an existing span, or its end lies in the half-open-from-the-left
interval `(m.index, m.index + m.length]` of an existing span.  (Note this
does not fire when the candidate strictly contains an existing span.) -/
def hasOverlap (mIndex mLen : Nat) (existing : List InlineMatch) : Bool :=
  existing.any fun m =>
    (decide (mIndex ≥ m.index) && decide (mIndex < m.index + m.length)) ||
    (decide (mIndex + mLen > m.index) && decide (mIndex + mLen ≤ m.index + m.length))

/-- One pass of `findAllMatches`: push every candidate whose `hasOverlap`
check against the already-collected array fails, in scan order. -/
def addMatches (existing : List InlineMatch) : List InlineMatch → List InlineMatch
  | [] => existing
  | c :: cs =>
    if hasOverlap c.index c.length existing then addMatches existing cs
    else addMatches (existing ++ [c]) cs

/-- Stable insertion used to model `matches.sort((a, b) => a.index - b.index)`
(`Array.prototype.sort` is stable and the comparator orders by `index`). -/
def insertMatch (m : InlineMatch) : List InlineMatch → List InlineMatch
  | [] => [m]
  | x :: xs => if m.index ≤ x.index then m :: x :: xs else x :: insertMatch m xs

/-- Stable sort by `index` ascending. -/
def sortByIndex (ms : List InlineMatch) : List InlineMatch :=
  ms.foldr insertMatch []

/-- `function findAllMatches(str)`: inline code candidates are pushed with no
overlap check, then links, bold (`**` then `__`), italic (`*` then `_`) are
each filtered against the growing collection, and the result is sorted by
start position. -/
def findAllMatches (str : List Char) : List InlineMatch :=
  let m0 := codeScan str.length str 0
  let m1 := addMatches m0 (linkScan str.length str 0)
  let m2 := addMatches m1 (boldScan '*' str.length str 0)
  let m3 := addMatches m2 (boldScan '_' str.length str 0)
  let m4 := addMatches m3 (italicScan '*' str.length none str 0)
  let m5 := addMatches m4 (italicScan '_' str.length none str 0)
  sortByIndex m5

/-- The `for (const match of matches)` walk of `parseInlineContent`, plus the
trailing-text push: `cur` is `currentIndex`.  A gap before a match becomes a
text token from `text.slice(currentIndex, match.index)`; each match becomes
its own token; the cursor jumps to the match end. -/
def walkMatches (text : List Char) (cur : Nat) : List InlineMatch → List InlineToken
  | [] =>
    if cur < text.length then [{ type := .text, content := text.drop cur }] else []
  | m :: ms =>
    (if m.index > cur then [({ type := .text, content := slice text cur m.index } : InlineToken)]
     else []) ++
    { type := m.type, content := m.content, metadata := m.metadata } ::
      walkMatches text (m.index + m.length) ms

/-- `export function parseInlineContent(text)`. -/
def parseInlineContent (text : List Char) : List InlineToken :=
  if text = [] then []
  else
    let ms := findAllMatches text
    if ms = [] then [{ type := .text, content := text }]
    else walkMatches text 0 ms

/-! ## Block token data model (`TokenType`, metadata variants, `MarkdownToken`) -/

/-- `export type TokenType`. -/
inductive TokenType where
  | header | bold | italic | code_block | inline_code
  | list_item | link | blockquote | paragraph | text
  deriving DecidableEq, Repr

/-- The metadata union of `MarkdownToken` (`HeaderMetadata | CodeBlockMetadata
| LinkMetadata | ListItemMetadata`); each constructor is one interface. -/
inductive Metadata where
  | header (level : Nat)
  | codeBlock (language : List Char)
  | link (url : List Char)
  | listItem (indent : Nat) (ordered : Bool) (number : Option Nat)
  deriving DecidableEq, Repr

/-- `export interface MarkdownToken`. -/
structure MarkdownToken where
  type : TokenType
  content : List Char
  children : Option (List InlineToken) := none
  metadata : Option Metadata := none
  deriving DecidableEq, Repr

/-! ## The `PATTERNS` line matchers

Each models `line.match(PATTERNS.x)` for whole-line-anchored patterns, with
greedy-plus-backtracking semantics made explicit.  The shared tail shape
`\s+(.+)$` (or `\s*(.*)$`) is handled by a downward search for the largest
whitespace split whose remainder reaches the end of the line without a
LineTerminator character (`.` cannot cross one and `$` is end-of-input). -/

/-- Largest `t ≤ tMax` with `1 ≤ t` such that `cs.drop t` is a nonempty run
of non-LineTerminator characters; models backtracking of `\s+` before
`(.+)$`.  Callers pass the maximal whitespace-run length as `tMax`. -/
def wsPlusSplit (cs : List Char) : Nat → Option (List Char)
  | 0 => none
  | t + 1 =>
    if cs.drop (t + 1) ≠ [] ∧ (cs.drop (t + 1)).all (fun c => ¬ lineTerm c) then
      some (cs.drop (t + 1))
    else wsPlusSplit cs t

/-- Capture of `\s+(.+)$` applied at the front of `cs`. -/
def wsPlusContent (cs : List Char) : Option (List Char) :=
  wsPlusSplit cs (countLeading jsWs cs)

/-- Largest `t ≤ tMax` (possibly `0`) such that `cs.drop t` is all
non-LineTerminator; models backtracking of `\s*` before `(.*)$`. -/
def wsStarSplit (cs : List Char) : Nat → Option (List Char)
  | 0 => if cs.all (fun c => ¬ lineTerm c) then some cs else none
  | t + 1 =>
    if (cs.drop (t + 1)).all (fun c => ¬ lineTerm c) then some (cs.drop (t + 1))
    else wsStarSplit cs t

/-- Capture of `\s*(.*)$` applied at the front of `cs`. -/
def wsStarContent (cs : List Char) : Option (List Char) :=
  wsStarSplit cs (countLeading jsWs cs)

/-- `PATTERNS.header = /^(#{1,6})\s+(.+)$/`; returns (level, content).  The
greedy `#{1,6}` can only stop at the end of the leading hash run (a shorter
split would require `\s+` to match `#`), so a run of 7+ hashes never
matches. -/
def headerMatch (l : List Char) : Option (Nat × List Char) :=
  let c := countLeading (· = '#') l
  if 1 ≤ c ∧ c ≤ 6 then (wsPlusContent (l.drop c)).map fun content => (c, content)
  else none

/-- `PATTERNS.codeBlockStart = /^```(\w*)$/`; returns the language capture. -/
def codeBlockStartMatch (l : List Char) : Option (List Char) :=
  match l with
  | '`' :: '`' :: '`' :: rest => if rest.all wordChar then some rest else none
  | _ => none

/-- `PATTERNS.codeBlockEnd = /^```$/`. -/
def codeBlockEndMatch (l : List Char) : Bool :=
  l = ['`', '`', '`']

/-- `PATTERNS.blockquote = /^>\s*(.*)$/`; returns the content capture. -/
def blockquoteMatch (l : List Char) : Option (List Char) :=
  match l with
  | '>' :: rest => wsStarContent rest
  | _ => none

/-- `PATTERNS.unorderedList = /^(\s*)[-*]\s+(.+)$/`; returns (indent,
content).  `\s*` must stop exactly at the end of the whitespace run since
`-`/`*` is not whitespace. -/
def unorderedListMatch (l : List Char) : Option (Nat × List Char) :=
  let w := countLeading jsWs l
  match l.drop w with
  | c :: rest =>
    if c = '-' ∨ c = '*' then (wsPlusContent rest).map fun content => (w, content)
    else none
  | [] => none

/-- Value of a decimal digit string (models `Number.parseInt(digits, 10)`;
the captured group is always a nonempty digit run). -/
def digitsToNat (cs : List Char) : Nat :=
  cs.foldl (fun acc c => acc * 10 + (c.toNat - '0'.toNat)) 0

/-- `PATTERNS.orderedList = /^(\s*)(\d+)\.\s+(.+)$/`; returns (indent,
number, content).  `\d+` must stop exactly at the end of the digit run:
backtracking to a shorter run would require the literal `\.` to match a
digit. -/
def orderedListMatch (l : List Char) : Option (Nat × Nat × List Char) :=
  let w := countLeading jsWs l
  let rest := l.drop w
  let d := countLeading digitChar rest
  if 1 ≤ d then
    match rest.drop d with
    | '.' :: rest2 =>
      (wsPlusContent rest2).map fun content => (w, digitsToNat (rest.take d), content)
    | _ => none
  else none

/-- `line.trim() === ""` (blank-line separator test). -/
def isBlank (l : List Char) : Bool :=
  l.all jsWs

/-! ## `tokenize` -/

/-- The inner `while` loop of the blockquote branch: collect consecutive
lines matching the blockquote pattern, returning their captured contents and
the remaining lines. -/
def spanBlockquote : List (List Char) → List (List Char) × List (List Char)
  | [] => ([], [])
  | l :: rest =>
    match blockquoteMatch l with
    | some c =>
      let (qs, r) := spanBlockquote rest
      (c :: qs, r)
    | none => ([], l :: rest)

/-- The paragraph stop condition: blank line or any block-level pattern. -/
def isParaStop (l : List Char) : Bool :=
  isBlank l || (headerMatch l).isSome || (codeBlockStartMatch l).isSome ||
  (blockquoteMatch l).isSome || (unorderedListMatch l).isSome ||
  (orderedListMatch l).isSome

/-- The inner `while` loop of the paragraph branch: greedily collect
consecutive non-stop lines. -/
def spanParagraph : List (List Char) → List (List Char) × List (List Char)
  | [] => ([], [])
  | l :: rest =>
    if isParaStop l then ([], l :: rest)
    else
      let (ps, r) := spanParagraph rest
      (l :: ps, r)

/-- Build the code-block token flushed at a closing fence or at end of
input: content is the accumulated lines joined by `\n`, metadata is present
only when a (nonempty) language tag was captured. -/
def mkCodeBlockToken (cbc : List (List Char)) (lang : Option (List Char)) : MarkdownToken :=
  { type := .code_block, content := joinNL cbc, metadata := lang.map .codeBlock }

/-- The main `while (i < lines.length)` loop of `tokenize`, as a recursion on
the remaining lines.  The carried mutable state is `(inCodeBlock,
codeBlockContent, codeBlockLanguage)`; the function also returns that state
at end of input so the final unterminated-fence flush can inspect it.  The
dispatch order is the source's: fence handling first, then header,
blockquote, unordered list, ordered list, blank line, paragraph.  `fuel` is
a structural termination device (callers pass the line count, which always
suffices since every step consumes at least one line). -/
def tokenizeLoop :
    Nat → List (List Char) → Bool → List (List Char) → Option (List Char) →
    List MarkdownToken × Bool × List (List Char) × Option (List Char)
  | _, [], inCB, cbc, lang => ([], inCB, cbc, lang)
  | 0, _ :: _, inCB, cbc, lang => ([], inCB, cbc, lang)
  | fuel + 1, l :: rest, inCB, cbc, lang =>
    if inCB then
      if codeBlockEndMatch l then
        let (ts, st) := tokenizeLoop fuel rest false [] none
        (mkCodeBlockToken cbc lang :: ts, st)
      else tokenizeLoop fuel rest true (cbc ++ [l]) lang
    else
      match codeBlockStartMatch l with
      | some langTag =>
        tokenizeLoop fuel rest true [] (if langTag = [] then none else some langTag)
      | none =>
        match headerMatch l with
        | some (level, content) =>
          let (ts, st) := tokenizeLoop fuel rest false cbc lang
          ({ type := .header, content := content,
             children := some (parseInlineContent content),
             metadata := some (.header level) } :: ts, st)
        | none =>
          match blockquoteMatch l with
          | some _ =>
            let (qs, rest2) := spanBlockquote (l :: rest)
            let content := joinNL qs
            let (ts, st) := tokenizeLoop fuel rest2 false cbc lang
            ({ type := .blockquote, content := content,
               children := some (parseInlineContent content) } :: ts, st)
          | none =>
            match unorderedListMatch l with
            | some (indent, content) =>
              let (ts, st) := tokenizeLoop fuel rest false cbc lang
              ({ type := .list_item, content := content,
                 children := some (parseInlineContent content),
                 metadata := some (.listItem indent false none) } :: ts, st)
            | none =>
              match orderedListMatch l with
              | some (indent, number, content) =>
                let (ts, st) := tokenizeLoop fuel rest false cbc lang
                ({ type := .list_item, content := content,
                   children := some (parseInlineContent content),
                   metadata := some (.listItem indent true (some number)) } :: ts, st)
              | none =>
                if isBlank l then tokenizeLoop fuel rest false cbc lang
                else
                  let (ps, rest2) := spanParagraph (l :: rest)
                  let (ts, st) := tokenizeLoop fuel rest2 false cbc lang
                  if ps = [] then (ts, st)
                  else
                    let content := joinNL ps
                    ({ type := .paragraph, content := content,
                       children := some (parseInlineContent content) } :: ts, st)

/-- `export function tokenize(text)`: early-return on the empty (falsy)
string, otherwise run the line scan and flush a final code-block token when
the scan ended inside a fence with at least one accumulated line. -/
def tokenize (text : List Char) : List MarkdownToken :=
  if text = [] then []
  else
    let lines := splitLines text
    let (toks, inCB, cbc, lang) := tokenizeLoop lines.length lines false [] none
    if inCB ∧ cbc ≠ [] then toks ++ [mkCodeBlockToken cbc lang] else toks

/-! ## Terminal renderer (the chalk-based renderer module)

The renderer applies chalk styling functions (`chalk.bold`, `chalk.dim`, …) to
substrings.  Whether these wrap their argument in ANSI escape sequences or
return it unchanged is decided by chalk from the environment, not by the
engine, so the renderer is parameterised by a `Style` record of the styling
combinators the source uses; `chalkNoColor` is the concrete instance where
color emission is suppressed (every combinator is the identity). -/

/-- The chalk styling combinators used by the renderer. -/
structure Style where
  bold : List Char → List Char
  italic : List Char → List Char
  dim : List Char → List Char
  cyan : List Char → List Char
  gray : List Char → List Char
  blueUnderline : List Char → List Char
  boldUnderline : List Char → List Char
  boldDim : List Char → List Char

/-- chalk with color emission suppressed: all combinators are identities. -/
def chalkNoColor : Style :=
  { bold := id, italic := id, dim := id, cyan := id, gray := id,
    blueUnderline := id, boldUnderline := id, boldDim := id }

/-- `function renderInlineToken(token)`. -/
def renderInlineToken (st : Style) (t : InlineToken) : List Char :=
  match t.type with
  | .text => t.content
  | .bold => st.bold t.content
  | .italic => st.italic t.content
  | .inline_code => st.cyan t.content
  | .link =>
    let url := t.metadata.getD []
    t.content ++ (" (".data ++ st.blueUnderline url ++ ")".data)

/-- `function renderInlineTokens(tokens)`. -/
def renderInlineTokens (st : Style) (ts : List InlineToken) : List Char :=
  (ts.map (renderInlineToken st)).flatten

/-- `token.children ? renderInlineTokens(token.children) : token.content`. -/
def childrenOrContent (st : Style) (t : MarkdownToken) : List Char :=
  match t.children with
  | some ch => renderInlineTokens st ch
  | none => t.content

/-- `export function renderToken(token)`. -/
def renderToken (st : Style) (t : MarkdownToken) : List Char :=
  match t.type with
  | .header =>
    let level := match t.metadata with
      | some (.header l) => l
      | _ => 1
    let content := childrenOrContent st t
    match level with
    | 1 => st.boldUnderline content
    | 2 => st.bold content
    | 3 => st.boldDim content
    | 4 => st.dim content
    | 5 => st.dim content
    | 6 => st.dim content
    | _ => content
  | .bold => st.bold t.content
  | .italic => st.italic t.content
  | .code_block =>
    let language : Option (List Char) := match t.metadata with
      | some (.codeBlock lang) => some lang
      | _ => none
    let labelLines : List (List Char) := match language with
      | some lang => [st.dim ('[' :: lang ++ [']'])]
      | none => []
    let codeLines := (splitLines t.content).map fun line =>
      st.dim "  ".data ++ st.gray line
    joinNL (labelLines ++ codeLines)
  | .inline_code => st.cyan t.content
  | .list_item =>
    let (indent, ordered, number) : Nat × Bool × Nat := match t.metadata with
      | some (.listItem ind ord num) => (ind, ord, num.getD 1)
      | _ => (0, false, 1)
    let content := childrenOrContent st t
    let indentStr := (List.replicate (indent / 2) "  ".data).flatten
    let pre := if ordered then (Nat.repr number).data ++ ['.'] else ['-']
    indentStr ++ pre ++ ' ' :: content
  | .link =>
    let url := match t.metadata with
      | some (.link u) => u
      | _ => []
    t.content ++ (" (".data ++ st.blueUnderline url ++ ")".data)
  | .blockquote =>
    let content := childrenOrContent st t
    joinNL ((splitLines content).map fun line => st.dim ('|' :: ' ' :: line))
  | .paragraph => childrenOrContent st t
  | .text => t.content

/-- The spacing loop of `renderMarkdown`: after each rendered part, push an
empty line after headers and code blocks, and after a paragraph that is not
the last token. -/
def addSpacing : List (List Char × TokenType) → List (List Char)
  | [] => []
  | (part, ty) :: rest =>
    if ty = .header ∨ ty = .code_block then part :: [] :: addSpacing rest
    else if ty = .paragraph ∧ rest ≠ [] then part :: [] :: addSpacing rest
    else part :: addSpacing rest

/-- `export function renderMarkdown(text)`: early-return the empty string on
falsy input and the raw input when no tokens were produced; otherwise render
every token, apply the spacing rules, join with `\n` and trim the end. -/
def renderMarkdown (st : Style) (text : List Char) : List Char :=
  if text = [] then []
  else
    let tokens := tokenize text
    if tokens = [] then text
    else
      let parts := tokens.map fun t => (renderToken st t, t.type)
      trimEnd (joinNL (addSpacing parts))

/-! ## Predicates used by the claims -/

/-- The half-open source spans `[index, index+length)` of two inline matches
do not intersect. -/
def spanDisjoint (a b : InlineMatch) : Prop :=
  a.index + a.length ≤ b.index ∨ b.index + b.length ≤ a.index

instance spanDisjointDec : DecidableRel spanDisjoint := fun a b =>
  decidable_of_iff (a.index + a.length ≤ b.index ∨ b.index + b.length ≤ a.index) Iff.rfl

/-- `a`'s span strictly contains `b`'s span (strictly on both ends). -/
def strictContains (a b : InlineMatch) : Prop :=
  a.index < b.index ∧ b.index + b.length < a.index + a.length

/-- Two spans are either disjoint or one strictly contains the other. -/
def disjointOrNested (a b : InlineMatch) : Prop :=
  spanDisjoint a b ∨ strictContains a b ∨ strictContains b a

/-- `sl` is the source text an inline token accounts for: its content with
the markup delimiters its kind implies re-inserted (and, for a link, its URL
part). -/
def tokenWraps (t : InlineToken) (sl : List Char) : Prop :=
  match t.type with
  | .text => sl = t.content
  | .inline_code => sl = '`' :: t.content ++ ['`']
  | .bold =>
    sl = '*' :: '*' :: t.content ++ ['*', '*'] ∨ sl = '_' :: '_' :: t.content ++ ['_', '_']
  | .italic => sl = '*' :: t.content ++ ['*'] ∨ sl = '_' :: t.content ++ ['_']
  | .link =>
    match t.metadata with
    | some u => sl = '[' :: t.content ++ ']' :: '(' :: u ++ [')']
    | none => False

/-- Same relation on a raw match. -/
def matchWraps (m : InlineMatch) (sl : List Char) : Prop :=
  tokenWraps { type := m.type, content := m.content, metadata := m.metadata } sl

/-- The per-match facts every collected inline match enjoys: its span is
nonempty and inside the string, its content is nonempty, and the source text
under its span is its content wrapped in its delimiters. -/
def matchFacts (s : List Char) (m : InlineMatch) : Prop :=
  1 ≤ m.length ∧ m.index + m.length ≤ s.length ∧ m.content ≠ [] ∧
    matchWraps m (slice s m.index (m.index + m.length))

/-- Claim C1's guarantee at one input: the returned inline tokens admit, in
order, a list of source slices that concatenates back to the whole input,
each slice being its token's content with the delimiters the token's kind
implies. -/
def inlineCoverage (s : List Char) : Prop :=
  ∃ slices, List.Forall₂ tokenWraps (parseInlineContent s) slices ∧ slices.flatten = s

/-- Claim C4's shape invariant for one block token: `children` present iff
the type is inline-eligible, and the metadata variant matches the type. -/
def mdShapeOk (t : MarkdownToken) : Prop :=
  (t.children.isSome ↔
    (t.type = .header ∨ t.type = .list_item ∨ t.type = .blockquote ∨ t.type = .paragraph)) ∧
  (match t.type with
   | .header => ∃ l, t.metadata = some (.header l) ∧ 1 ≤ l ∧ l ≤ 6
   | .code_block => t.metadata = none ∨ ∃ lang, t.metadata = some (.codeBlock lang)
   | .list_item => ∃ ind ord num, t.metadata = some (.listItem ind ord num)
   | .blockquote => t.metadata = none
   | .paragraph => t.metadata = none
   | _ => True)

/-! # Helper lemmas -/

theorem countLeading_eq_zero {p : Char → Bool} {l : List Char}
    (h : ∀ c, l.head? = some c → p c = false) : countLeading p l = 0 := by
  cases l with
  | nil => rfl
  | cons c rest => simp [countLeading, h c rfl]

theorem countLeading_drop_head (p : Char → Bool) (l : List Char) :
    ∀ c, (l.drop (countLeading p l)).head? = some c → p c = false := by
  induction l with
  | nil => intro c h; simp at h
  | cons x rest ih =>
    intro c h
    by_cases hx : p x
    · rw [countLeading, if_pos hx, List.drop_succ_cons] at h
      exact ih c h
    · rw [countLeading, if_neg hx, List.drop_zero, List.head?_cons] at h
      cases h
      simpa using hx

theorem wsPlusContent_eq_none {cs : List Char}
    (h : ∀ c, cs.head? = some c → jsWs c = false) : wsPlusContent cs = none := by
  rw [wsPlusContent, countLeading_eq_zero h]
  rfl

theorem head?_dropWhile_false (p : Char → Bool) (l : List Char) :
    ∀ c, ((l.dropWhile p).head? = some c) → p c = false := by
  induction l with
  | nil => intro c h; simp at h
  | cons x t ih =>
    intro c h
    rw [List.dropWhile_cons] at h
    split at h
    · exact ih c h
    · rw [List.head?_cons] at h
      cases h
      simpa using ‹¬ p x = true›

theorem trimEnd_no_trailing (s : List Char) :
    ∀ c, (trimEnd s).getLast? = some c → jsWs c = false := by
  intro c h
  rw [trimEnd, List.getLast?_reverse] at h
  exact head?_dropWhile_false jsWs _ c h

/-- Unfolding of `renderMarkdown` on inputs that produce tokens. -/
theorem renderMarkdown_of_tokens_ne (st : Style) (s : List Char) (hs : s ≠ [])
    (h : tokenize s ≠ []) :
    renderMarkdown st s =
      trimEnd (joinNL (addSpacing ((tokenize s).map fun t => (renderToken st t, t.type)))) := by
  rw [renderMarkdown, if_neg hs]
  exact if_neg h

theorem headerMatch_level {l : List Char} {lvl : Nat} {content : List Char}
    (h : headerMatch l = some (lvl, content)) : 1 ≤ lvl ∧ lvl ≤ 6 := by
  simp only [headerMatch] at h
  split at h
  case isTrue hc =>
    rcases Option.map_eq_some'.mp h with ⟨x, _, he⟩
    injection he with h1 h2
    subst h1
    exact hc
  case isFalse => cases h

theorem mkCodeBlockToken_shape (cbc : List (List Char)) (lang : Option (List Char)) :
    mdShapeOk (mkCodeBlockToken cbc lang) := by
  refine ⟨by simp [mkCodeBlockToken], ?_⟩
  cases lang with
  | none => exact Or.inl rfl
  | some l => exact Or.inr ⟨l, rfl⟩

theorem tokenizeLoop_shape (fuel : Nat) :
    ∀ (lines : List (List Char)) (inCB : Bool) (cbc : List (List Char))
      (lang : Option (List Char)) (t : MarkdownToken),
      t ∈ (tokenizeLoop fuel lines inCB cbc lang).1 → mdShapeOk t := by
  induction fuel with
  | zero =>
    intro lines inCB cbc lang t ht
    cases lines <;> simp [tokenizeLoop] at ht
  | succ f ih =>
    intro lines inCB cbc lang t ht
    cases lines with
    | nil => simp [tokenizeLoop] at ht
    | cons l rest =>
      rw [tokenizeLoop] at ht
      by_cases hcb : inCB = true
      · simp only [if_pos hcb] at ht
        by_cases hend : codeBlockEndMatch l = true
        · rcases hL : tokenizeLoop f rest false [] none with ⟨ts, b2, c2, l2⟩
          simp only [if_pos hend, hL] at ht
          rcases List.mem_cons.mp ht with h | h
          · subst h; exact mkCodeBlockToken_shape cbc lang
          · exact ih rest false [] none t (by rw [hL]; exact h)
        · simp only [if_neg hend] at ht
          exact ih rest true (cbc ++ [l]) lang t ht
      · simp only [if_neg hcb] at ht
        rcases hcs : codeBlockStartMatch l with _ | langTag
        · simp only [hcs] at ht
          rcases hh : headerMatch l with _ | ⟨level, content⟩
          · simp only [hh] at ht
            rcases hbq : blockquoteMatch l with _ | bq
            · simp only [hbq] at ht
              rcases hul : unorderedListMatch l with _ | ⟨indent, content⟩
              · simp only [hul] at ht
                rcases hol : orderedListMatch l with _ | ⟨indent, number, content⟩
                · simp only [hol] at ht
                  by_cases hbl : isBlank l = true
                  · simp only [if_pos hbl] at ht
                    exact ih rest false cbc lang t ht
                  · rcases hsp : spanParagraph (l :: rest) with ⟨ps, rest2⟩
                    rcases hL : tokenizeLoop f rest2 false cbc lang with ⟨ts, b2, c2, l2⟩
                    simp only [if_neg hbl, hsp, hL] at ht
                    by_cases hps : ps = []
                    · simp only [if_pos hps] at ht
                      exact ih rest2 false cbc lang t (by rw [hL]; exact ht)
                    · simp only [if_neg hps] at ht
                      rcases List.mem_cons.mp ht with h | h
                      · subst h
                        exact ⟨by simp, rfl⟩
                      · exact ih rest2 false cbc lang t (by rw [hL]; exact h)
                · rcases hL : tokenizeLoop f rest false cbc lang with ⟨ts, b2, c2, l2⟩
                  simp only [hol, hL] at ht
                  rcases List.mem_cons.mp ht with h | h
                  · subst h
                    exact ⟨by simp, ⟨indent, true, some number, rfl⟩⟩
                  · exact ih rest false cbc lang t (by rw [hL]; exact h)
              · rcases hL : tokenizeLoop f rest false cbc lang with ⟨ts, b2, c2, l2⟩
                simp only [hul, hL] at ht
                rcases List.mem_cons.mp ht with h | h
                · subst h
                  exact ⟨by simp, ⟨indent, false, none, rfl⟩⟩
                · exact ih rest false cbc lang t (by rw [hL]; exact h)
            · rcases hsp : spanBlockquote (l :: rest) with ⟨qs, rest2⟩
              rcases hL : tokenizeLoop f rest2 false cbc lang with ⟨ts, b2, c2, l2⟩
              simp only [hbq, hsp, hL] at ht
              rcases List.mem_cons.mp ht with h | h
              · subst h
                exact ⟨by simp, rfl⟩
              · exact ih rest2 false cbc lang t (by rw [hL]; exact h)
          · rcases hL : tokenizeLoop f rest false cbc lang with ⟨ts, b2, c2, l2⟩
            simp only [hh, hL] at ht
            rcases List.mem_cons.mp ht with h | h
            · subst h
              obtain ⟨h1, h6⟩ := headerMatch_level hh
              exact ⟨by simp, ⟨level, rfl, h1, h6⟩⟩
            · exact ih rest false cbc lang t (by rw [hL]; exact h)
        · simp only [hcs] at ht
          exact ih rest true [] (if langTag = [] then none else some langTag) t ht

/-! ### Scanner emptiness lemmas -/

theorem codeScan_nil (fuel : Nat) :
    ∀ (cs : List Char) (i : Nat), (∀ c ∈ cs, c ≠ '`') → codeScan fuel cs i = [] := by
  induction fuel with
  | zero => intro cs i _; cases cs <;> rfl
  | succ f ih =>
    intro cs i h
    cases cs with
    | nil => rfl
    | cons c rest =>
      simp only [codeScan, if_neg (h c (List.mem_cons_self c rest))]
      exact ih rest (i + 1) fun x hx => h x (List.mem_cons_of_mem _ hx)

theorem codeScan_nil_of_all_bt (fuel : Nat) :
    ∀ (cs : List Char) (i : Nat), (∀ c ∈ cs, c = '`') → codeScan fuel cs i = [] := by
  induction fuel with
  | zero => intro cs i _; cases cs <;> rfl
  | succ f ih =>
    intro cs i h
    cases cs with
    | nil => rfl
    | cons c rest =>
      have hrest : ∀ x ∈ rest, x = '`' := fun x hx => h x (List.mem_cons_of_mem _ hx)
      simp only [codeScan, if_pos (h c (List.mem_cons_self c rest))]
      cases rest with
      | nil =>
        simp only [findCh]
        exact ih [] (i + 1) fun x hx => absurd hx (List.not_mem_nil x)
      | cons c2 rest2 =>
        have h2 : c2 = '`' := hrest c2 (List.mem_cons_self c2 rest2)
        simp only [findCh, if_pos h2]
        simp only [show ¬ (1 ≤ 0) from by omega, if_neg, ite_false]
        exact ih _ (i + 1) hrest

theorem linkScan_nil (fuel : Nat) :
    ∀ (cs : List Char) (i : Nat), (∀ c ∈ cs, c ≠ '[') → linkScan fuel cs i = [] := by
  induction fuel with
  | zero => intro cs i _; cases cs <;> rfl
  | succ f ih =>
    intro cs i h
    cases cs with
    | nil => rfl
    | cons c rest =>
      simp only [linkScan, if_neg (h c (List.mem_cons_self c rest))]
      exact ih rest (i + 1) fun x hx => h x (List.mem_cons_of_mem _ hx)

theorem boldScan_nil_of_not_mem (d : Char) (fuel : Nat) :
    ∀ (cs : List Char) (i : Nat), (∀ c ∈ cs, c ≠ d) → boldScan d fuel cs i = [] := by
  induction fuel with
  | zero => intro cs i _; cases cs <;> rfl
  | succ f ih =>
    intro cs i h
    cases cs with
    | nil => rfl
    | cons c1 cs' =>
      cases cs' with
      | nil => rfl
      | cons c2 rest =>
        have h1 : c1 ≠ d := h c1 (List.mem_cons_self c1 _)
        simp only [boldScan, if_neg (fun hc : c1 = d ∧ c2 = d => h1 hc.1)]
        exact ih (c2 :: rest) (i + 1) fun x hx => h x (List.mem_cons_of_mem _ hx)

theorem boldScan_nil_of_all_eq (d : Char) (fuel : Nat) :
    ∀ (cs : List Char) (i : Nat), (∀ c ∈ cs, c = d) → boldScan d fuel cs i = [] := by
  induction fuel with
  | zero => intro cs i _; cases cs <;> rfl
  | succ f ih =>
    intro cs i h
    cases cs with
    | nil => rfl
    | cons c1 cs' =>
      cases cs' with
      | nil => rfl
      | cons c2 rest =>
        have htl : ∀ x ∈ c2 :: rest, x = d := fun x hx => h x (List.mem_cons_of_mem _ hx)
        have h1 : c1 = d := h c1 (List.mem_cons_self c1 _)
        have h2 : c2 = d := htl c2 (List.mem_cons_self c2 _)
        simp only [boldScan, if_pos (And.intro h1 h2)]
        cases rest with
        | nil => exact ih (c2 :: []) (i + 1) htl
        | cons c3 rest2 =>
          have h3 : c3 = d := htl c3 (List.mem_cons_of_mem _ (List.mem_cons_self c3 _))
          simp only [if_pos h3]
          exact ih (c2 :: c3 :: rest2) (i + 1) htl

theorem italicScan_nil_of_not_mem (d : Char) (fuel : Nat) :
    ∀ (cs : List Char) (prev : Option Char) (i : Nat), (∀ c ∈ cs, c ≠ d) →
      italicScan d fuel prev cs i = [] := by
  induction fuel with
  | zero => intro cs prev i _; cases cs <;> rfl
  | succ f ih =>
    intro cs prev i h
    cases cs with
    | nil => rfl
    | cons c rest =>
      have h1 : c ≠ d := h c (List.mem_cons_self c _)
      simp only [italicScan, if_neg (fun hc : c = d ∧ prev ≠ some d => h1 hc.1)]
      exact ih rest (some c) (i + 1) fun x hx => h x (List.mem_cons_of_mem _ hx)

theorem italicScan_nil_of_all_eq (d : Char) (fuel : Nat) :
    ∀ (cs : List Char) (prev : Option Char) (i : Nat), (∀ c ∈ cs, c = d) →
      italicScan d fuel prev cs i = [] := by
  induction fuel with
  | zero => intro cs prev i _; cases cs <;> rfl
  | succ f ih =>
    intro cs prev i h
    cases cs with
    | nil => rfl
    | cons c rest =>
      have h1 : c = d := h c (List.mem_cons_self c _)
      have htl : ∀ x ∈ rest, x = d := fun x hx => h x (List.mem_cons_of_mem _ hx)
      by_cases hp : prev = some d
      · simp only [italicScan, if_neg (fun hc : c = d ∧ prev ≠ some d => hc.2 hp)]
        exact ih rest (some c) (i + 1) htl
      · simp only [italicScan, if_pos (And.intro h1 hp)]
        cases rest with
        | nil => exact ih [] (some c) (i + 1) (by intro x hx; cases hx)
        | cons c2 rest2 =>
          have h2 : c2 = d := htl c2 (List.mem_cons_self c2 _)
          simp only [if_pos h2]
          exact ih (c2 :: rest2) (some c) (i + 1) htl

/-- Collapse `findAllMatches` when every scanner comes up empty. -/
theorem findAllMatches_nil (s : List Char)
    (h1 : codeScan s.length s 0 = []) (h2 : linkScan s.length s 0 = [])
    (h3 : boldScan '*' s.length s 0 = []) (h4 : boldScan '_' s.length s 0 = [])
    (h5 : italicScan '*' s.length none s 0 = [])
    (h6 : italicScan '_' s.length none s 0 = []) : findAllMatches s = [] := by
  rw [findAllMatches]
  simp only [h1, h2, h3, h4, h5, h6]
  rfl

/-- `findAllMatches` finds nothing in a string free of all four delimiter
characters. -/
theorem findAllMatches_nil_of_no_delims (s : List Char)
    (h : ∀ c ∈ s, c ≠ '`' ∧ c ≠ '[' ∧ c ≠ '*' ∧ c ≠ '_') : findAllMatches s = [] := by
  refine findAllMatches_nil s
    (codeScan_nil _ _ _ fun c hc => (h c hc).1)
    (linkScan_nil _ _ _ fun c hc => (h c hc).2.1)
    (boldScan_nil_of_not_mem _ _ _ _ fun c hc => (h c hc).2.2.1)
    (boldScan_nil_of_not_mem _ _ _ _ fun c hc => (h c hc).2.2.2)
    (italicScan_nil_of_not_mem _ _ _ _ _ fun c hc => (h c hc).2.2.1)
    (italicScan_nil_of_not_mem _ _ _ _ _ fun c hc => (h c hc).2.2.2)

theorem parseInline_text_of_no_matches (s : List Char) (hs : s ≠ [])
    (hm : findAllMatches s = []) :
    parseInlineContent s = [{ type := .text, content := s }] := by
  rw [parseInlineContent, if_neg hs]
  simp [hm]

/-! ### Positional helpers -/

theorem drop_cons_succ {s cs : List Char} {c : Char} {i : Nat}
    (h : s.drop i = c :: cs) : s.drop (i + 1) = cs := by
  have h2 := congrArg (List.drop 1) h
  rw [List.drop_drop] at h2
  simpa [Nat.add_comm] using h2

theorem drop_len {s cs : List Char} {c : Char} {i : Nat}
    (h : s.drop i = c :: cs) : s.length = i + cs.length + 1 := by
  have h2 : i < s.length := by
    by_contra hle
    push_neg at hle
    rw [List.drop_eq_nil_of_le hle] at h
    cases h
  have h1 : (s.drop i).length = s.length - i := List.length_drop i s
  rw [h, List.length_cons] at h1
  omega

theorem drop_shift {s cs : List Char} {i : Nat} (h : s.drop i = cs) (n : Nat) :
    s.drop (i + n) = cs.drop n := by
  rw [← h, List.drop_drop]

theorem findCh_lt {x : Char} : ∀ {l : List Char} {k : Nat}, findCh x l = some k → k < l.length := by
  intro l
  induction l with
  | nil => intro k h; cases h
  | cons c rest ih =>
    intro k h
    rw [findCh] at h
    split at h
    · cases h; simp
    · rcases Option.map_eq_some'.mp h with ⟨k2, hk2, he⟩
      subst he
      have := ih hk2
      simp
      omega

theorem findCh_drop {x : Char} : ∀ {l : List Char} {k : Nat}, findCh x l = some k →
    l.drop k = x :: l.drop (k + 1) := by
  intro l
  induction l with
  | nil => intro k h; cases h
  | cons c rest ih =>
    intro k h
    rw [findCh] at h
    split at h
    · cases h
      simp [‹c = x›]
    · rcases Option.map_eq_some'.mp h with ⟨k2, hk2, he⟩
      subst he
      simpa using ih hk2

theorem take_succ_eq {l : List Char} {n : Nat} {c : Char} {t : List Char}
    (h : l.drop n = c :: t) : l.take (n + 1) = l.take n ++ [c] := by
  induction n generalizing l with
  | zero =>
    rw [List.drop_zero] at h
    subst h
    rfl
  | succ n2 ih =>
    cases l with
    | nil => cases h
    | cons a t2 =>
      rw [List.drop_succ_cons] at h
      rw [List.take_succ_cons, List.take_succ_cons, ih h]
      rfl

theorem take_ne_nil {l : List Char} {k : Nat} (hk : 1 ≤ k) (hl : l ≠ []) :
    l.take k ≠ [] := by
  cases l with
  | nil => exact absurd rfl hl
  | cons a t =>
    cases k with
    | zero => omega
    | succ k2 => simp

/-- `slice` of a span starting where a known suffix starts. -/
theorem slice_of_drop {s cs : List Char} {i : Nat} (h : s.drop i = cs) (n : Nat) :
    slice s i (i + n) = cs.take n := by
  rw [slice, h]
  congr 1
  omega

/-! ### Scanner span facts -/

theorem codeScan_lb : ∀ (fuel : Nat) (cs : List Char) (i : Nat) (m : InlineMatch),
    m ∈ codeScan fuel cs i → i ≤ m.index := by
  intro fuel
  induction fuel with
  | zero => intro cs i m hm; cases cs <;> simp [codeScan] at hm
  | succ f ih =>
    intro cs i m hm
    cases cs with
    | nil => simp [codeScan] at hm
    | cons c rest =>
      rw [codeScan] at hm
      by_cases hc : c = '`'
      · simp only [if_pos hc] at hm
        rcases hf : findCh '`' rest with _ | k
        · simp only [hf] at hm
          have := ih rest (i + 1) m hm
          omega
        · simp only [hf] at hm
          by_cases hk : 1 ≤ k
          · simp only [if_pos hk] at hm
            rcases List.mem_cons.mp hm with h | h
            · subst h; exact le_refl i
            · have := ih _ (i + k + 2) m h
              omega
          · simp only [if_neg hk] at hm
            have := ih rest (i + 1) m hm
            omega
      · simp only [if_neg hc] at hm
        have := ih rest (i + 1) m hm
        omega

theorem codeScan_chain : ∀ (fuel : Nat) (cs : List Char) (i : Nat),
    List.Pairwise (fun a b => a.index + a.length ≤ b.index) (codeScan fuel cs i) := by
  intro fuel
  induction fuel with
  | zero => intro cs i; cases cs <;> simp [codeScan]
  | succ f ih =>
    intro cs i
    cases cs with
    | nil => simp [codeScan]
    | cons c rest =>
      rw [codeScan]
      by_cases hc : c = '`'
      · simp only [if_pos hc]
        rcases hf : findCh '`' rest with _ | k
        · simp only [hf]
          exact ih rest (i + 1)
        · simp only [hf]
          by_cases hk : 1 ≤ k
          · simp only [if_pos hk]
            refine List.Pairwise.cons ?_ (ih _ (i + k + 2))
            intro m hm
            have := codeScan_lb f _ (i + k + 2) m hm
            simp only [InlineMatch.index, InlineMatch.length]
            omega
          · simp only [if_neg hk]
            exact ih rest (i + 1)
      · simp only [if_neg hc]
        exact ih rest (i + 1)

theorem findCh_pos {x c : Char} {t : List Char} {k : Nat}
    (h : findCh x (c :: t) = some k) (hc : c ≠ x) : 1 ≤ k := by
  rw [findCh, if_neg hc] at h
  rcases Option.map_eq_some'.mp h with ⟨k2, _, he⟩
  omega

theorem codeScan_facts (s : List Char) : ∀ (fuel : Nat) (cs : List Char) (i : Nat),
    s.drop i = cs → ∀ m ∈ codeScan fuel cs i, matchFacts s m := by
  intro fuel
  induction fuel with
  | zero => intro cs i _ m hm; cases cs <;> simp [codeScan] at hm
  | succ f ih =>
    intro cs i hcs m hm
    cases cs with
    | nil => simp [codeScan] at hm
    | cons c rest =>
      rw [codeScan] at hm
      by_cases hc : c = '`'
      · simp only [if_pos hc] at hm
        rcases hf : findCh '`' rest with _ | k
        · simp only [hf] at hm
          exact ih rest (i + 1) (drop_cons_succ hcs) m hm
        · simp only [hf] at hm
          by_cases hk : 1 ≤ k
          · simp only [if_pos hk] at hm
            rcases List.mem_cons.mp hm with h | h
            · subst h
              have hlen := drop_len hcs
              have hklt := findCh_lt hf
              refine ⟨by show 1 ≤ k + 2; omega, ?_, ?_, ?_⟩
              · show i + (k + 2) ≤ s.length
                omega
              · show rest.take k ≠ []
                exact take_ne_nil hk (by intro he; subst he; simp at hklt)
              · show slice s i (i + (k + 2)) = '`' :: rest.take k ++ ['`']
                rw [slice_of_drop hcs, List.take_succ_cons,
                  take_succ_eq (findCh_drop hf), hc]
                simp
            · refine ih (rest.drop (k + 1)) (i + k + 2) ?_ m h
              have h2 := drop_shift (drop_cons_succ hcs) (k + 1)
              rw [show i + 1 + (k + 1) = i + k + 2 from by omega] at h2
              exact h2
          · simp only [if_neg hk] at hm
            exact ih rest (i + 1) (drop_cons_succ hcs) m hm
      · simp only [if_neg hc] at hm
        exact ih rest (i + 1) (drop_cons_succ hcs) m hm

theorem linkScan_facts (s : List Char) : ∀ (fuel : Nat) (cs : List Char) (i : Nat),
    s.drop i = cs → ∀ m ∈ linkScan fuel cs i, matchFacts s m := by
  intro fuel
  induction fuel with
  | zero => intro cs i _ m hm; cases cs <;> simp [linkScan] at hm
  | succ f ih =>
    intro cs i hcs m hm
    cases cs with
    | nil => simp [linkScan] at hm
    | cons c rest =>
      rw [linkScan] at hm
      by_cases hc : c = '['
      case neg =>
        simp only [if_neg hc] at hm
        exact ih rest (i + 1) (drop_cons_succ hcs) m hm
      simp only [if_pos hc] at hm
      rcases hf : findCh ']' rest with _ | k
      · simp only [hf] at hm
        exact ih rest (i + 1) (drop_cons_succ hcs) m hm
      simp only [hf] at hm
      by_cases hk : 1 ≤ k
      case neg =>
        simp only [if_neg hk] at hm
        exact ih rest (i + 1) (drop_cons_succ hcs) m hm
      simp only [if_pos hk] at hm
      rcases hdd : rest.drop (k + 1) with _ | ⟨c2, rest2⟩
      · simp only [hdd] at hm
        exact ih rest (i + 1) (drop_cons_succ hcs) m hm
      simp only [hdd] at hm
      by_cases hc2 : c2 = '('
      case neg =>
        simp only [if_neg hc2] at hm
        exact ih rest (i + 1) (drop_cons_succ hcs) m hm
      simp only [if_pos hc2] at hm
      rcases hf2 : findCh ')' rest2 with _ | mm
      · simp only [hf2] at hm
        exact ih rest (i + 1) (drop_cons_succ hcs) m hm
      simp only [hf2] at hm
      by_cases hmm : 1 ≤ mm
      case neg =>
        simp only [if_neg hmm] at hm
        exact ih rest (i + 1) (drop_cons_succ hcs) m hm
      simp only [if_pos hmm] at hm
      have hlen := drop_len hcs
      have hklt := findCh_lt hf
      have hmlt := findCh_lt hf2
      have hdrop2 : rest.drop (k + 2) = rest2 := by
        have h2 := drop_cons_succ hdd
        rwa [show k + 1 + 1 = k + 2 from by omega] at h2
      have hrlen : rest.length = k + rest2.length + 2 := by
        have h3 := congrArg List.length hdd
        rw [List.length_drop, List.length_cons] at h3
        omega
      rcases List.mem_cons.mp hm with h | h
      · subst h
        refine ⟨by show 1 ≤ k + mm + 4; omega, ?_, ?_, ?_⟩
        · show i + (k + mm + 4) ≤ s.length
          omega
        · show rest.take k ≠ []
          exact take_ne_nil hk (by intro he; subst he; simp at hklt)
        · show slice s i (i + (k + mm + 4)) =
            '[' :: rest.take k ++ ']' :: '(' :: rest2.take mm ++ [')']
          rw [slice_of_drop hcs, show k + mm + 4 = (k + mm + 3) + 1 from by omega,
            List.take_succ_cons, show k + mm + 3 = (k + 2) + (mm + 1) from by omega,
            List.take_add, show k + 2 = (k + 1) + 1 from by omega,
            take_succ_eq hdd, take_succ_eq (findCh_drop hf),
            show k + 1 + 1 = k + 2 from by omega, hdrop2,
            take_succ_eq (findCh_drop hf2), hc, hc2]
          simp
      · refine ih (rest2.drop (mm + 1)) (i + k + mm + 4) ?_ m h
        have h4 := drop_shift (drop_cons_succ hcs) (k + 2)
        rw [hdrop2, show i + 1 + (k + 2) = i + k + 3 from by omega] at h4
        have h5 := drop_shift h4 (mm + 1)
        rwa [show i + k + 3 + (mm + 1) = i + k + mm + 4 from by omega] at h5

theorem boldScan_facts (s : List Char) (d : Char) (hd : d = '*' ∨ d = '_') :
    ∀ (fuel : Nat) (cs : List Char) (i : Nat),
    s.drop i = cs → ∀ m ∈ boldScan d fuel cs i, matchFacts s m := by
  intro fuel
  induction fuel with
  | zero => intro cs i _ m hm; cases cs <;> simp [boldScan] at hm
  | succ f ih =>
    intro cs i hcs m hm
    cases cs with
    | nil => simp [boldScan] at hm
    | cons c1 cs' =>
      cases cs' with
      | nil => simp [boldScan] at hm
      | cons c2 rest =>
        simp only [boldScan] at hm
        have hnext : s.drop (i + 1) = c2 :: rest := drop_cons_succ hcs
        by_cases h12 : c1 = d ∧ c2 = d
        case neg =>
          simp only [if_neg h12] at hm
          exact ih (c2 :: rest) (i + 1) hnext m hm
        simp only [if_pos h12] at hm
        cases rest with
        | nil => exact ih (c2 :: []) (i + 1) hnext m hm
        | cons c3 rest' =>
          by_cases hc3 : c3 = d
          case pos =>
            simp only [if_pos hc3] at hm
            exact ih (c2 :: c3 :: rest') (i + 1) hnext m hm
          simp only [if_neg hc3] at hm
          rcases hf : findCh d (c3 :: rest') with _ | k
          · simp only [hf] at hm
            exact ih (c2 :: c3 :: rest') (i + 1) hnext m hm
          simp only [hf] at hm
          rcases hdd : (c3 :: rest').drop (k + 1) with _ | ⟨c4, rest2⟩
          · simp only [hdd] at hm
            exact ih (c2 :: c3 :: rest') (i + 1) hnext m hm
          simp only [hdd] at hm
          by_cases hc4 : c4 = d
          case neg =>
            simp only [if_neg hc4] at hm
            exact ih (c2 :: c3 :: rest') (i + 1) hnext m hm
          simp only [if_pos hc4] at hm
          have hk := findCh_pos hf hc3
          have hlen := drop_len hnext
          have hklt := findCh_lt hf
          have hdrop2 : (c3 :: rest').drop (k + 2) = rest2 := by
            have h2 := drop_cons_succ hdd
            rwa [show k + 1 + 1 = k + 2 from by omega] at h2
          have hrlen : (c3 :: rest').length = k + rest2.length + 2 := by
            have h3 := congrArg List.length hdd
            rw [List.length_drop, List.length_cons] at h3
            simp only [List.length_cons] at h3 ⊢
            omega
          rcases List.mem_cons.mp hm with h | h
          · subst h
            refine ⟨by show 1 ≤ k + 4; omega, ?_, ?_, ?_⟩
            · show i + (k + 4) ≤ s.length
              simp only [List.length_cons] at hlen hklt hrlen
              omega
            · show (c3 :: rest').take k ≠ []
              exact take_ne_nil hk (by intro he; cases he)
            · have hsl : slice s i (i + (k + 4)) =
                  d :: d :: ((c3 :: rest').take k ++ [d] ++ [d]) := by
                rw [slice_of_drop hcs, show k + 4 = (k + 3) + 1 from by omega,
                  List.take_succ_cons, show k + 3 = (k + 2) + 1 from by omega,
                  List.take_succ_cons, show k + 2 = (k + 1) + 1 from by omega,
                  take_succ_eq hdd, take_succ_eq (findCh_drop hf), h12.1, h12.2, hc4]
              rcases hd with hstar | hunder
              · exact Or.inl (by rw [hsl, hstar]; simp)
              · exact Or.inr (by rw [hsl, hunder]; simp)
          · refine ih rest2 (i + k + 4) ?_ m h
            have h4 := drop_shift (drop_cons_succ hnext) (k + 2)
            rw [hdrop2, show i + 1 + 1 + (k + 2) = i + k + 4 from by omega] at h4
            exact h4

theorem italicScan_facts (s : List Char) (d : Char) (hd : d = '*' ∨ d = '_') :
    ∀ (fuel : Nat) (prev : Option Char) (cs : List Char) (i : Nat),
    s.drop i = cs → ∀ m ∈ italicScan d fuel prev cs i, matchFacts s m := by
  intro fuel
  induction fuel with
  | zero => intro prev cs i _ m hm; cases cs <;> simp [italicScan] at hm
  | succ f ih =>
    intro prev cs i hcs m hm
    cases cs with
    | nil => simp [italicScan] at hm
    | cons c rest =>
      simp only [italicScan] at hm
      have hnext : s.drop (i + 1) = rest := drop_cons_succ hcs
      by_cases hc : c = d ∧ prev ≠ some d
      case neg =>
        simp only [if_neg hc] at hm
        exact ih (some c) rest (i + 1) hnext m hm
      simp only [if_pos hc] at hm
      cases rest with
      | nil => exact ih (some c) [] (i + 1) hnext m hm
      | cons c2 rest' =>
        by_cases hc2 : c2 = d
        case pos =>
          simp only [if_pos hc2] at hm
          exact ih (some c) (c2 :: rest') (i + 1) hnext m hm
        simp only [if_neg hc2] at hm
        rcases hf : findCh d (c2 :: rest') with _ | k
        · simp only [hf] at hm
          exact ih (some c) (c2 :: rest') (i + 1) hnext m hm
        simp only [hf] at hm
        by_cases hla : ((c2 :: rest').drop (k + 1)).head? = some d
        case pos =>
          simp only [if_pos hla] at hm
          exact ih (some c) (c2 :: rest') (i + 1) hnext m hm
        simp only [if_neg hla] at hm
        have hk := findCh_pos hf hc2
        have hlen := drop_len hcs
        have hklt := findCh_lt hf
        rcases List.mem_cons.mp hm with h | h
        · subst h
          refine ⟨by show 1 ≤ k + 2; omega, ?_, ?_, ?_⟩
          · show i + (k + 2) ≤ s.length
            simp only [List.length_cons] at hlen hklt
            omega
          · show (c2 :: rest').take k ≠ []
            exact take_ne_nil hk (by intro he; cases he)
          · have hsl : slice s i (i + (k + 2)) = d :: ((c2 :: rest').take k ++ [d]) := by
              rw [slice_of_drop hcs, show k + 2 = (k + 1) + 1 from by omega,
                List.take_succ_cons, take_succ_eq (findCh_drop hf), hc.1]
            rcases hd with hstar | hunder
            · exact Or.inl (by rw [hsl, hstar]; simp)
            · exact Or.inr (by rw [hsl, hunder]; simp)
        · refine ih (some d) ((c2 :: rest').drop (k + 1)) (i + k + 2) ?_ m h
          have h4 := drop_shift hnext (k + 1)
          rwa [show i + 1 + (k + 1) = i + k + 2 from by omega] at h4

/-! ### Collection and sorting lemmas -/

theorem hasOverlap_false {ci cl : Nat} {ex : List InlineMatch}
    (h : hasOverlap ci cl ex = false) :
    ∀ e ∈ ex, (ci + cl ≤ e.index ∨ e.index + e.length ≤ ci) ∨
      (ci < e.index ∧ e.index + e.length < ci + cl) := by
  intro e he
  rw [hasOverlap, List.any_eq_false] at h
  have h2 := h e he
  simp only [Bool.or_eq_true, Bool.and_eq_true, decide_eq_true_eq, not_or, not_and] at h2
  omega

theorem disjointOrNested_symm : ∀ a b : InlineMatch,
    disjointOrNested a b → disjointOrNested b a := by
  intro a b h
  rcases h with (h1 | h1) | h1 | h1
  · exact Or.inl (Or.inr h1)
  · exact Or.inl (Or.inl h1)
  · exact Or.inr (Or.inr h1)
  · exact Or.inr (Or.inl h1)

theorem addMatches_mem : ∀ (cands ex : List InlineMatch) (m : InlineMatch),
    m ∈ addMatches ex cands → m ∈ ex ∨ m ∈ cands := by
  intro cands
  induction cands with
  | nil => intro ex m hm; exact Or.inl hm
  | cons c cs ih =>
    intro ex m hm
    simp only [addMatches] at hm
    split at hm
    · rcases ih ex m hm with h | h
      · exact Or.inl h
      · exact Or.inr (List.mem_cons_of_mem _ h)
    · rcases ih (ex ++ [c]) m hm with h | h
      · rcases List.mem_append.mp h with h2 | h2
        · exact Or.inl h2
        · exact Or.inr (List.mem_cons.mpr (Or.inl (List.mem_singleton.mp h2)))
      · exact Or.inr (List.mem_cons_of_mem _ h)

theorem addMatches_pairwise : ∀ (cands ex : List InlineMatch),
    List.Pairwise disjointOrNested ex →
    List.Pairwise disjointOrNested (addMatches ex cands) := by
  intro cands
  induction cands with
  | nil => intro ex h; exact h
  | cons c cs ih =>
    intro ex h
    by_cases hov : hasOverlap c.index c.length ex = true
    · simp only [addMatches, if_pos hov]
      exact ih ex h
    · have hov2 : hasOverlap c.index c.length ex = false := Bool.eq_false_iff.mpr hov
      simp only [addMatches, if_neg hov]
      refine ih (ex ++ [c]) ?_
      rw [List.pairwise_append]
      refine ⟨h, List.pairwise_singleton _ _, ?_⟩
      intro a ha b hb
      rw [List.mem_singleton] at hb
      subst hb
      rcases hasOverlap_false hov2 a ha with hdis | hstrict
      · exact Or.inl (by rcases hdis with h1 | h1; exacts [Or.inr h1, Or.inl h1])
      · exact Or.inr (Or.inr ⟨hstrict.1, hstrict.2⟩)

theorem insertMatch_perm (m : InlineMatch) : ∀ l, List.Perm (insertMatch m l) (m :: l) := by
  intro l
  induction l with
  | nil => exact List.Perm.refl _
  | cons x xs ih =>
    rw [insertMatch]
    split
    · exact List.Perm.refl _
    · exact (List.Perm.cons x ih).trans (List.Perm.swap m x xs)

theorem sortByIndex_perm : ∀ ms, List.Perm (sortByIndex ms) ms := by
  intro ms
  induction ms with
  | nil => exact List.Perm.refl _
  | cons x xs ih =>
    simp only [sortByIndex, List.foldr_cons]
    exact (insertMatch_perm x _).trans (List.Perm.cons x ih)

theorem insertMatch_sorted (m : InlineMatch) :
    ∀ l, List.Pairwise (fun a b : InlineMatch => a.index ≤ b.index) l →
    List.Pairwise (fun a b : InlineMatch => a.index ≤ b.index) (insertMatch m l) := by
  intro l
  induction l with
  | nil => intro _; exact List.pairwise_singleton _ _
  | cons x xs ih =>
    intro h
    rw [insertMatch]
    by_cases hle : m.index ≤ x.index
    · rw [if_pos hle]
      refine List.Pairwise.cons ?_ h
      intro b hb
      rcases List.mem_cons.mp hb with rfl | hb2
      · exact hle
      · exact le_trans hle (List.rel_of_pairwise_cons h hb2)
    · rw [if_neg hle]
      rcases h with _ | ⟨hx, hxs⟩
      refine List.Pairwise.cons ?_ (ih hxs)
      intro b hb
      have hb2 := (insertMatch_perm m xs).mem_iff.mp hb
      rcases List.mem_cons.mp hb2 with rfl | hb3
      · omega
      · exact hx b hb3

theorem sortByIndex_sorted : ∀ ms,
    List.Pairwise (fun a b : InlineMatch => a.index ≤ b.index) (sortByIndex ms) := by
  intro ms
  induction ms with
  | nil => exact List.Pairwise.nil
  | cons x xs ih =>
    simp only [sortByIndex, List.foldr_cons]
    exact insertMatch_sorted x _ ih

/-- Every match `findAllMatches` returns satisfies the per-match facts. -/
theorem findAllMatches_facts (s : List Char) :
    ∀ m ∈ findAllMatches s, matchFacts s m := by
  intro m hm
  rw [findAllMatches] at hm
  have hm2 := (sortByIndex_perm _).mem_iff.mp hm
  rcases addMatches_mem _ _ _ hm2 with hm3 | hm3
  swap
  · exact italicScan_facts s '_' (Or.inr rfl) _ none s 0 (by simp) m hm3
  rcases addMatches_mem _ _ _ hm3 with hm4 | hm4
  swap
  · exact italicScan_facts s '*' (Or.inl rfl) _ none s 0 (by simp) m hm4
  rcases addMatches_mem _ _ _ hm4 with hm5 | hm5
  swap
  · exact boldScan_facts s '_' (Or.inr rfl) _ s 0 (by simp) m hm5
  rcases addMatches_mem _ _ _ hm5 with hm6 | hm6
  swap
  · exact boldScan_facts s '*' (Or.inl rfl) _ s 0 (by simp) m hm6
  rcases addMatches_mem _ _ _ hm6 with hm7 | hm7
  · exact codeScan_facts s _ s 0 (by simp) m hm7
  · exact linkScan_facts s _ s 0 (by simp) m hm7

theorem findAllMatches_sorted (s : List Char) :
    List.Pairwise (fun a b : InlineMatch => a.index ≤ b.index) (findAllMatches s) := by
  rw [findAllMatches]
  exact sortByIndex_sorted _

theorem slice_append_drop (s : List Char) {a b : Nat} (hab : a ≤ b) :
    slice s a b ++ s.drop b = s.drop a := by
  rw [slice]
  have h2 : (s.drop a).drop (b - a) = s.drop b := by
    rw [List.drop_drop]
    congr 1
    omega
  rw [← h2, List.take_append_drop]

theorem walkMatches_covers (s : List Char) :
    ∀ (ms : List InlineMatch) (cur : Nat), cur ≤ s.length →
    (∀ m ∈ ms, matchFacts s m ∧ cur ≤ m.index) →
    List.Pairwise (fun a b : InlineMatch => a.index + a.length ≤ b.index) ms →
    ∃ slices, List.Forall₂ tokenWraps (walkMatches s cur ms) slices ∧
      slices.flatten = s.drop cur := by
  intro ms
  induction ms with
  | nil =>
    intro cur hcur _ _
    rw [walkMatches]
    by_cases hlt : cur < s.length
    · rw [if_pos hlt]
      exact ⟨[s.drop cur], List.Forall₂.cons rfl List.Forall₂.nil, by simp⟩
    · rw [if_neg hlt]
      refine ⟨[], List.Forall₂.nil, ?_⟩
      simp only [List.flatten_nil]
      exact (List.drop_eq_nil_of_le (by omega)).symm
  | cons m ms' ih =>
    intro cur hcur hfacts hpw
    obtain ⟨⟨hlen1, hbound, hcne, hwraps⟩, hcurle⟩ := hfacts m (List.mem_cons_self m ms')
    rcases hpw with _ | ⟨hrel, hpw'⟩
    have htail : ∀ m2 ∈ ms', matchFacts s m2 ∧ m.index + m.length ≤ m2.index :=
      fun m2 hm2 => ⟨(hfacts m2 (List.mem_cons_of_mem _ hm2)).1, hrel m2 hm2⟩
    obtain ⟨slices', hf2, hflat⟩ := ih (m.index + m.length) hbound htail hpw'
    rw [walkMatches]
    by_cases hgap : m.index > cur
    · rw [if_pos hgap]
      refine ⟨slice s cur m.index :: slice s m.index (m.index + m.length) :: slices',
        ?_, ?_⟩
      · simp only [List.cons_append, List.nil_append]
        exact List.Forall₂.cons rfl (List.Forall₂.cons hwraps hf2)
      · simp only [List.flatten_cons]
        rw [hflat, slice_append_drop s (by omega : m.index ≤ m.index + m.length),
          slice_append_drop s (by omega : cur ≤ m.index)]
    · rw [if_neg hgap]
      have heq : m.index = cur := by omega
      refine ⟨slice s m.index (m.index + m.length) :: slices', ?_, ?_⟩
      · simp only [List.nil_append]
        exact List.Forall₂.cons hwraps hf2
      · simp only [List.flatten_cons]
        rw [hflat, slice_append_drop s (by omega : m.index ≤ m.index + m.length), heq]

/-! ### Line-splitting and paragraph lemmas -/

theorem splitLines_ne_nil (s : List Char) : splitLines s ≠ [] := by
  cases s with
  | nil => intro h; cases h
  | cons c rest =>
    simp only [splitLines]
    by_cases hc : c = '\n'
    · simp [hc]
    · simp only [if_neg hc]
      rcases splitLines rest with _ | ⟨l, ls2⟩ <;> simp

theorem joinNL_single (x : List Char) : joinNL [x] = x := by
  simp [joinNL, List.intercalate]

theorem joinNL_cons (x y : List Char) (t : List (List Char)) :
    joinNL (x :: y :: t) = x ++ '\n' :: joinNL (y :: t) := by
  simp [joinNL, List.intercalate, List.intersperse]

theorem joinNL_cons_head (c : Char) (y : List Char) (t : List (List Char)) :
    joinNL ((c :: y) :: t) = c :: joinNL (y :: t) := by
  cases t with
  | nil => rw [joinNL_single, joinNL_single]
  | cons z t2 =>
    rw [joinNL_cons, joinNL_cons]
    simp

theorem joinNL_splitLines (s : List Char) : joinNL (splitLines s) = s := by
  induction s with
  | nil => rfl
  | cons c rest ih =>
    simp only [splitLines]
    rcases hsp : splitLines rest with _ | ⟨y, t⟩
    · exact absurd hsp (splitLines_ne_nil rest)
    · by_cases hc : c = '\n'
      · subst hc
        rw [if_pos rfl, joinNL_cons, List.nil_append, ← hsp, ih]
      · simp only [if_neg hc]
        rw [joinNL_cons_head, ← hsp, ih]

theorem paraStop_parts {l : List Char} (h : isParaStop l = false) :
    isBlank l = false ∧ headerMatch l = none ∧ codeBlockStartMatch l = none ∧
    blockquoteMatch l = none ∧ unorderedListMatch l = none ∧
    orderedListMatch l = none := by
  rw [isParaStop] at h
  simp only [Bool.or_eq_false_iff] at h
  obtain ⟨⟨⟨⟨⟨h1, h2⟩, h3⟩, h4⟩, h5⟩, h6⟩ := h
  refine ⟨h1, ?_, ?_, ?_, ?_, ?_⟩
  · cases hx : headerMatch l
    · rfl
    · rw [hx] at h2; simp at h2
  · cases hx : codeBlockStartMatch l
    · rfl
    · rw [hx] at h3; simp at h3
  · cases hx : blockquoteMatch l
    · rfl
    · rw [hx] at h4; simp at h4
  · cases hx : unorderedListMatch l
    · rfl
    · rw [hx] at h5; simp at h5
  · cases hx : orderedListMatch l
    · rfl
    · rw [hx] at h6; simp at h6

theorem spanParagraph_all : ∀ ls : List (List Char), (∀ l ∈ ls, isParaStop l = false) →
    spanParagraph ls = (ls, []) := by
  intro ls
  induction ls with
  | nil => intro _; rfl
  | cons l rest ih =>
    intro h
    have h0 : isParaStop l = false := h l (List.mem_cons_self l rest)
    simp only [spanParagraph, h0, ih (fun x hx => h x (List.mem_cons_of_mem _ hx))]
    simp

/-! # Claim theorems -/

/-- C9: `tokenize` on the empty string returns the empty token sequence, and
`renderMarkdown` on the empty string returns the empty string, for every
styling backend.  (Both are total Lean functions, so neither can raise.) -/
theorem claim9_empty_input :
    tokenize ("".data) = [] ∧ ∀ st : Style, renderMarkdown st ("".data) = "".data :=
  ⟨rfl, fun _ => rfl⟩

/-- C7: parsing `"Use `**not bold**` syntax"` yields exactly Text "Use ",
InlineCode "**not bold**", Text " syntax"; the bold-looking sequence inside
the inline-code span is not re-parsed as bold. -/
theorem claim7_code_precedence :
    parseInlineContent ("Use `**not bold**` syntax".data) =
      [{ type := .text, content := "Use ".data },
       { type := .inline_code, content := "**not bold**".data },
       { type := .text, content := " syntax".data }] := by
  decide

/-- C3 counterexample: when the fence opener is the last line and zero
interior lines were accumulated, `tokenize` appends no CodeBlock token at
all (the flush is guarded by `codeBlockContent.length > 0`), contradicting
the claim's "exactly one final CodeBlock token ... including ... zero
interior lines". -/
theorem claim3_counterexample :
    tokenize ("```python".data) = [] := by
  decide

/-- C3 (amended): whenever the line scan ends still inside an unterminated
code fence having accumulated at least one interior line, `tokenize` appends
exactly one final CodeBlock token whose content is those lines joined by
newlines, with the captured language tag as metadata when present. -/
theorem claim3_unterminated_fence_flush (s : List Char) (toks : List MarkdownToken)
    (cbc : List (List Char)) (lang : Option (List Char)) (hs : s ≠ [])
    (hloop : tokenizeLoop (splitLines s).length (splitLines s) false [] none =
      (toks, true, cbc, lang))
    (hcbc : cbc ≠ []) :
    tokenize s = toks ++ [mkCodeBlockToken cbc lang] := by
  unfold tokenize
  rw [if_neg hs]
  simp only [hloop]
  simp [hcbc]

/-- C3 witness: `"```py\nx"` ends inside a fence with one accumulated line. -/
theorem claim3_witness :
    tokenize ("```py\nx".data) = [] ++ [mkCodeBlockToken [("x".data)] (some ("py".data))] :=
  claim3_unterminated_fence_flush ("```py\nx".data) [] [("x".data)] (some ("py".data))
    (by decide) (by decide) (by decide)

/-- C6 counterexample: on the whitespace-only input `" "`, `tokenize`
produces no tokens and `renderMarkdown` early-returns the input unchanged,
so the result ends in a whitespace character. -/
theorem claim6_counterexample :
    (renderMarkdown chalkNoColor (" ".data)).getLast? = some ' ' ∧ jsWs ' ' = true := by
  decide

/-- C5 counterexample: `"a\n\n\nb"` contains no header/fence/list/blockquote
line and no inline delimiter, yet `renderMarkdown` collapses the blank-line
run: the result differs from the input even after trailing-whitespace
trimming (the input has no trailing whitespace at all). -/
theorem claim5_counterexample :
    renderMarkdown chalkNoColor ("a\n\n\nb".data) = "a\n\nb".data ∧
    trimEnd ("a\n\n\nb".data) = "a\n\n\nb".data ∧
    ("a\n\nb".data ≠ "a\n\n\nb".data) := by
  decide

/-- C10 counterexample: `"****__****"` consists solely of empty delimiter
pairs (`"****"`, an empty `__` pair, `"****"`), yet `parseInlineContent`
does not return a single Text token: the bold scanner matches `**__**`
across the pair boundaries. -/
theorem claim10_counterexample :
    parseInlineContent ("****__****".data) =
      [{ type := .text, content := "**".data },
       { type := .bold, content := "__".data },
       { type := .text, content := "**".data }] ∧
    parseInlineContent ("****__****".data) ≠
      [{ type := .text, content := "****__****".data }] := by
  decide

/-- C2 counterexample: on `"**a`b`c**"` the bold candidate strictly contains
the already-accepted inline-code match, `hasOverlap` does not fire on strict
containment, and the bold match is accepted: a lower-precedence match whose
span intersects a higher-precedence span survives collection. -/
theorem claim2_counterexample :
    findAllMatches ("**a`b`c**".data) =
      [{ index := 0, length := 9, type := .bold, content := "a`b`c".data },
       { index := 3, length := 3, type := .inline_code, content := "b".data }] ∧
    ¬ spanDisjoint
      { index := 0, length := 9, type := .bold, content := "a`b`c".data }
      { index := 3, length := 3, type := .inline_code, content := "b".data } := by
  constructor
  · decide
  · intro h
    rcases h with h | h <;> simp [InlineMatch.index, InlineMatch.length] at h

/-- C8: `tokenize "#hello"` yields a single Paragraph token, and in general
a line whose leading `#` run is not followed by a whitespace character never
matches the header pattern — nor any other block pattern, so in the
per-line dispatch of `tokenize` it falls through to paragraph handling. -/
theorem claim8_header_needs_space :
    tokenize ("#hello".data) =
      [{ type := .paragraph, content := "#hello".data,
         children := some [{ type := .text, content := "#hello".data }] }] ∧
    ∀ t : List Char,
      (∀ c, (('#' :: t).drop (countLeading (· = '#') ('#' :: t))).head? = some c →
        jsWs c = false) →
      headerMatch ('#' :: t) = none ∧ codeBlockStartMatch ('#' :: t) = none ∧
      blockquoteMatch ('#' :: t) = none ∧ unorderedListMatch ('#' :: t) = none ∧
      orderedListMatch ('#' :: t) = none ∧ isBlank ('#' :: t) = false := by
  constructor
  · decide
  · intro t hnows
    refine ⟨?_, rfl, rfl, ?_, ?_, ?_⟩
    · rw [headerMatch]
      split
      · rw [wsPlusContent_eq_none fun c h => hnows c (by simpa using h)]
        rfl
      · rfl
    · rw [unorderedListMatch, countLeading_eq_zero (p := jsWs) (by intro c h; cases h; decide),
          List.drop_zero]
      simp
    · rw [orderedListMatch, countLeading_eq_zero (p := jsWs) (by intro c h; cases h; decide),
          List.drop_zero, countLeading_eq_zero (p := digitChar) (by intro c h; cases h; decide)]
      simp
    · rw [isBlank, List.all_cons]
      simp [show jsWs '#' = false from by decide]

/-- C8 witness: the line `"#x"` (leading hash run followed by a non-space)
matches none of the block patterns. -/
theorem claim8_witness :
    headerMatch ('#' :: "x".data) = none ∧ codeBlockStartMatch ('#' :: "x".data) = none ∧
    blockquoteMatch ('#' :: "x".data) = none ∧ unorderedListMatch ('#' :: "x".data) = none ∧
    orderedListMatch ('#' :: "x".data) = none ∧ isBlank ('#' :: "x".data) = false :=
  claim8_header_needs_space.2 ("x".data) (by
    intro c h
    have h2 : some 'x' = some c := h
    injection h2 with h3
    subst h3
    decide)

/-- C6 (amended): whenever `tokenize` produces at least one token (and on
the empty string), the string returned by `renderMarkdown` ends with no
trailing whitespace or newline; when a nonempty input produces zero tokens
(whitespace-only input, or a lone fence opener), `renderMarkdown` returns
the input itself, untrimmed. -/
theorem claim6_render_trimmed (st : Style) (s : List Char) (h : tokenize s ≠ []) :
    ∀ c, (renderMarkdown st s).getLast? = some c → jsWs c = false := by
  have hs : s ≠ [] := fun he => h (by rw [he]; rfl)
  rw [renderMarkdown_of_tokens_ne st s hs h]
  exact trimEnd_no_trailing _

/-- C6 witness: `"a"` tokenizes to one paragraph and renders with no
trailing whitespace. -/
theorem claim6_witness :
    tokenize ("a".data) ≠ [] ∧
    ∀ c, (renderMarkdown chalkNoColor ("a".data)).getLast? = some c → jsWs c = false :=
  ⟨by decide, claim6_render_trimmed chalkNoColor ("a".data) (by decide)⟩

/-- C4: every block token `tokenize` produces has `children` present exactly
for header / list_item / blockquote / paragraph (never code_block), and a
metadata variant matching its type: `{level}` with level in 1..6 for
headers, `{language}` or absent for code blocks, `{indent, ordered,
optional number}` for list items, and none for blockquotes and
paragraphs. -/
theorem claim4_token_shapes (s : List Char) (t : MarkdownToken) (ht : t ∈ tokenize s) :
    mdShapeOk t := by
  rw [tokenize] at ht
  by_cases hs : s = []
  · simp [if_pos hs] at ht
  · rcases hL : tokenizeLoop (splitLines s).length (splitLines s) false [] none
      with ⟨ts, b2, c2, l2⟩
    simp only [if_neg hs, hL] at ht
    by_cases hfl : b2 = true ∧ c2 ≠ []
    · simp only [if_pos hfl] at ht
      rcases List.mem_append.mp ht with h | h
      · exact tokenizeLoop_shape _ _ _ _ _ t (by rw [hL]; exact h)
      · rw [List.mem_singleton] at h
        subst h
        exact mkCodeBlockToken_shape c2 l2
    · simp only [if_neg hfl] at ht
      exact tokenizeLoop_shape _ _ _ _ _ t (by rw [hL]; exact ht)

/-- C4 witness: the header token produced for `"# Hi"` is well-shaped. -/
theorem claim4_witness :
    mdShapeOk { type := .header, content := "Hi".data,
                children := some [{ type := .text, content := "Hi".data }],
                metadata := some (.header 1) } :=
  claim4_token_shapes ("# Hi".data) _ (by decide)

/-- C2 (amended): during collection a candidate is discarded exactly when
its start lies inside an accepted span or its end lies inside an accepted
span extended through its right endpoint; a candidate that strictly contains
an accepted span at both ends is NOT discarded.  Consequently any two
accepted matches have spans that are either disjoint or strictly nested —
partial overlap is impossible, but a lower-precedence match may strictly
contain a higher-precedence one. -/
theorem claim2_accepted_disjoint_or_nested (s : List Char) :
    List.Pairwise disjointOrNested (findAllMatches s) := by
  rw [findAllMatches]
  have h0 : List.Pairwise disjointOrNested (codeScan s.length s 0) := by
    refine (codeScan_chain s.length s 0).imp ?_
    intro a b hab
    exact Or.inl (Or.inl hab)
  exact ((sortByIndex_perm _).pairwise_iff
    (fun h => disjointOrNested_symm _ _ h)).mpr
    (addMatches_pairwise _ _ (addMatches_pairwise _ _ (addMatches_pairwise _ _
      (addMatches_pairwise _ _ (addMatches_pairwise _ _ h0)))))

/-- C10 (amended): every inline construct requires nonempty content between
its delimiters, so no collected match ever has empty content; and a
non-empty string made of empty pairs of a single delimiter character (all
`*`, all `_`, or all backticks — e.g. `"****"`) parses to exactly one Text
token equal to the whole input.  Mixing empty pairs of different delimiter
characters can however assemble a nonempty match across pair boundaries
(see the counterexample `"****__****"`). -/
theorem claim10_empty_pairs :
    (∀ (s : List Char) (m : InlineMatch), m ∈ findAllMatches s → m.content ≠ []) ∧
    (∀ s : List Char, s ≠ [] →
      ((∀ c ∈ s, c = '*') ∨ (∀ c ∈ s, c = '_') ∨ (∀ c ∈ s, c = '`')) →
      parseInlineContent s = [{ type := .text, content := s }]) := by
  constructor
  · intro s m hm
    exact (findAllMatches_facts s m hm).2.2.1
  · intro s hs hu
    refine parseInline_text_of_no_matches s hs ?_
    rcases hu with h | h | h
    · exact findAllMatches_nil s
        (codeScan_nil _ _ _ fun c hc => by rw [h c hc]; decide)
        (linkScan_nil _ _ _ fun c hc => by rw [h c hc]; decide)
        (boldScan_nil_of_all_eq '*' _ _ _ h)
        (boldScan_nil_of_not_mem '_' _ _ _ fun c hc => by rw [h c hc]; decide)
        (italicScan_nil_of_all_eq '*' _ _ _ _ h)
        (italicScan_nil_of_not_mem '_' _ _ _ _ fun c hc => by rw [h c hc]; decide)
    · exact findAllMatches_nil s
        (codeScan_nil _ _ _ fun c hc => by rw [h c hc]; decide)
        (linkScan_nil _ _ _ fun c hc => by rw [h c hc]; decide)
        (boldScan_nil_of_not_mem '*' _ _ _ fun c hc => by rw [h c hc]; decide)
        (boldScan_nil_of_all_eq '_' _ _ _ h)
        (italicScan_nil_of_not_mem '*' _ _ _ _ fun c hc => by rw [h c hc]; decide)
        (italicScan_nil_of_all_eq '_' _ _ _ _ h)
    · exact findAllMatches_nil s
        (codeScan_nil_of_all_bt _ _ _ h)
        (linkScan_nil _ _ _ fun c hc => by rw [h c hc]; decide)
        (boldScan_nil_of_not_mem '*' _ _ _ fun c hc => by rw [h c hc]; decide)
        (boldScan_nil_of_not_mem '_' _ _ _ fun c hc => by rw [h c hc]; decide)
        (italicScan_nil_of_not_mem '*' _ _ _ _ fun c hc => by rw [h c hc]; decide)
        (italicScan_nil_of_not_mem '_' _ _ _ _ fun c hc => by rw [h c hc]; decide)

/-- C10 witness: the inline-code match collected from `"a `b` c"` has
nonempty content, and `"****"` parses to a single Text token. -/
theorem claim10_witness :
    ({ index := 2, length := 3, type := .inline_code, content := "b".data,
       metadata := none } : InlineMatch).content ≠ [] ∧
    parseInlineContent ("****".data) = [{ type := .text, content := "****".data }] :=
  ⟨claim10_empty_pairs.1 ("a `b` c".data) _ (by decide),
   claim10_empty_pairs.2 ("****".data) (by decide) (Or.inl (by decide))⟩

/-- C1 counterexample: on `"**a`b`c**"` the accepted bold match strictly
contains the inline-code match, the emitted tokens overlap in source
position and duplicate the `` `b` `` and `c**` text, and no assignment of
delimited source slices to the tokens concatenates back to the input. -/
theorem claim1_counterexample : ¬ inlineCoverage ("**a`b`c**".data) := by
  intro h
  obtain ⟨slices, hf, hflat⟩ := h
  rw [show parseInlineContent ("**a`b`c**".data) =
      [{ type := .bold, content := "a`b`c".data },
       { type := .inline_code, content := "b".data },
       { type := .text, content := "c**".data }] from by decide] at hf
  rcases hf with _ | ⟨hw1, hf⟩
  rcases hf with _ | ⟨hw2, hf⟩
  rcases hf with _ | ⟨hw3, hf⟩
  cases hf
  rw [tokenWraps] at hw2 hw3
  subst hw2
  subst hw3
  rcases hw1 with h1 | h1 <;> subst h1 <;> exact absurd hflat (by decide)

/-- C1 (amended): for every input on which the accepted inline matches are
pairwise disjoint (the overlap filter fails to discard a lower-precedence
candidate that strictly contains a higher-precedence match, so this is a
genuine restriction), the returned tokens cover the input exhaustively in
source order with no gaps and no overlaps: there is an ordered assignment
of source slices, one per token, concatenating to the original string, in
which each slice is the token's content wrapped in the delimiters its kind
implies (and, for Link, its URL part). -/
theorem claim1_inline_coverage (s : List Char)
    (hdisj : List.Pairwise spanDisjoint (findAllMatches s)) : inlineCoverage s := by
  rw [inlineCoverage, parseInlineContent]
  by_cases hs : s = []
  · rw [if_pos hs]
    exact ⟨[], List.Forall₂.nil, by rw [hs]; rfl⟩
  rw [if_neg hs]
  by_cases hms : findAllMatches s = []
  · simp only [hms, if_pos]
    refine ⟨[s], List.Forall₂.cons rfl List.Forall₂.nil, by simp⟩
  · simp only [hms, if_neg, ite_false]
    have hchain : List.Pairwise
        (fun a b : InlineMatch => a.index + a.length ≤ b.index) (findAllMatches s) := by
      refine ((findAllMatches_sorted s).and hdisj).imp_of_mem ?_
      intro a b ha hb hab
      have hblen := (findAllMatches_facts s b hb).1
      rcases hab.2 with h | h
      · exact h
      · omega
    obtain ⟨slices, hfa, hflat⟩ := walkMatches_covers s (findAllMatches s) 0
      (by omega)
      (fun m hm => ⟨findAllMatches_facts s m hm, Nat.zero_le _⟩)
      hchain
    exact ⟨slices, hfa, by rw [hflat]; rfl⟩

/-- C1 witness: `"a `b` c"` has pairwise-disjoint accepted matches and its
inline tokens cover the input. -/
theorem claim1_witness :
    List.Pairwise spanDisjoint (findAllMatches ("a `b` c".data)) ∧
    inlineCoverage ("a `b` c".data) :=
  ⟨by decide, claim1_inline_coverage ("a `b` c".data) (by decide)⟩

/-- C5 (amended): for every string in which no line matches a header,
fence, blockquote, or list pattern AND no line is blank (whitespace-only),
and which contains no inline delimiter characters, `renderMarkdown` returns
the string unchanged except for trailing-whitespace trimming.  (Blank lines
must be excluded: they are consumed as paragraph separators and their runs
collapse, as the counterexample shows.) -/
theorem claim5_plain_render (st : Style) (s : List Char)
    (hplain : ∀ l ∈ splitLines s, isParaStop l = false)
    (hdelim : ∀ c ∈ s, c ≠ '`' ∧ c ≠ '[' ∧ c ≠ '*' ∧ c ≠ '_') :
    renderMarkdown st s = trimEnd s := by
  have hs : s ≠ [] := by
    intro he
    subst he
    have h1 := hplain [] (by rw [show splitLines [] = [[]] from rfl]; simp)
    rw [show isParaStop [] = true from by decide] at h1
    cases h1
  rcases hsp : splitLines s with _ | ⟨l, rest⟩
  · exact absurd hsp (splitLines_ne_nil s)
  have hstop : ∀ l2 ∈ l :: rest, isParaStop l2 = false := by
    rw [← hsp]; exact hplain
  obtain ⟨hbl, hh, hcs2, hbq, hul, hol⟩ := paraStop_parts (hstop l (List.mem_cons_self _ _))
  have hspan : spanParagraph (l :: rest) = (l :: rest, []) := spanParagraph_all _ hstop
  have hjoin : joinNL (l :: rest) = s := by rw [← hsp, joinNL_splitLines]
  have hinline : parseInlineContent s = [{ type := .text, content := s }] :=
    parseInline_text_of_no_matches s hs (findAllMatches_nil_of_no_delims s hdelim)
  have hloop : tokenizeLoop (l :: rest).length (l :: rest) false [] none =
      ([{ type := .paragraph, content := s,
          children := some [{ type := .text, content := s }] }], false, [], none) := by
    rw [show (l :: rest).length = rest.length + 1 from rfl, tokenizeLoop]
    simp only [Bool.false_eq_true, if_false, hcs2, hh, hbq, hul, hol, hbl, hspan,
      hjoin, hinline, tokenizeLoop]
    simp
  have htok : tokenize s =
      [{ type := .paragraph, content := s,
         children := some [{ type := .text, content := s }] }] := by
    rw [tokenize, if_neg hs, hsp]
    simp only [hloop]
    simp
  have hne : tokenize s ≠ [] := by rw [htok]; simp
  rw [renderMarkdown_of_tokens_ne st s hs hne, htok]
  simp [renderToken, childrenOrContent, renderInlineTokens, renderInlineToken,
    addSpacing, joinNL_single]

/-- C5 witness: a two-line plain text input renders to itself trimmed. -/
theorem claim5_witness :
    (∀ l ∈ splitLines ("hello\nworld ".data), isParaStop l = false) ∧
    renderMarkdown chalkNoColor ("hello\nworld ".data) = trimEnd ("hello\nworld ".data) :=
  ⟨by decide, claim5_plain_render chalkNoColor ("hello\nworld ".data) (by decide) (by decide)⟩

end NiaVault
